import Mathlib

/-!
# Verification of the `ThreadPool` worker pool (`ThreadPool.h`)

A shallow embedding of the worker pool from `src/Roulette Simulator/ThreadPool.h`
as a small-step transition system, together with theorems settling the
specification's claims about it.

Correspondence with the source:

* `Task` models one queued work item: the `std::function<void()>` wrapper around a
  `std::packaged_task`.  Since the pool treats work items as black-box computations
  that either return a value or throw, a work item's behaviour is its identifier
  plus its outcome-when-invoked (`Except String Int`: `ok v` = returns `v`,
  `error e` = throws `e`).
* `PoolState` models the pool's shared data: `tasks` is the FIFO
  `std::queue<std::function<void()>>` (head = `front()`), `stopFlag` is the
  `bool stopFlag`, `stopReq` holds each worker's `std::stop_token` state
  (set by the `jthread` destructor), `workers` holds each worker thread's
  status, and `results` models the filled promise/future shared states
  (each `packaged_task` delivers exactly once).  `nextId` numbers submissions.
* `enqueue` is `ThreadPool::enqueue`'s critical section: under the lock it
  checks `stopFlag`, throws (`PoolError.poolClosed`) if set, otherwise
  emplaces at the back of the queue and returns the future (its id).
* `Step` has one constructor per atomic action of the source: a successful
  `enqueue` call, a worker taking `tasks.front()` and popping it (only when the
  wait predicate holds and the return check fails), a worker finishing a task
  (the `packaged_task` stores the value or the caught exception), a worker
  returning from `workerLoop` because `(stopFlag && tasks.empty()) ||
  st.stop_requested()`, the destructor setting `stopFlag`, and a `jthread`
  destructor requesting stop.  All queue accesses in the source happen under
  the single mutex, which is why each is one atomic step.
* `destroyRemaining` models the very end of `~ThreadPool`: destroying the
  `tasks` queue destroys every never-invoked `packaged_task`, which breaks its
  future (`std::future_error` / broken promise); a blocked `future::get` then
  fails instead of hanging.
-/

deriving instance DecidableEq for Except

namespace TP

/-- One queued work item: its submission id and the outcome invoking it
produces (`ok v`: returns `v`; `error e`: throws `e`). -/
structure Task where
  id : Nat
  comp : Except String Int
deriving Repr, DecidableEq

/-- What a `future::get` on a handle can observe once completed. -/
inductive Outcome where
  /-- The `packaged_task` stored the returned value. -/
  | value (v : Int)
  /-- The work item threw; the `packaged_task` stored the exception. -/
  | thrown (e : String)
  /-- The `packaged_task` was destroyed without ever being invoked
  (broken promise). -/
  | broken
deriving Repr, DecidableEq

/-- Invoking a work item directly and synchronously: a returned value is
observed as `value`, a thrown exception as `thrown`. -/
def outcomeOf : Except String Int → Outcome
  | .ok v => .value v
  | .error e => .thrown e

/-- Status of one worker thread. -/
inductive WStatus where
  /-- Inside the `cv.wait` / about to re-check the loop. -/
  | idle
  /-- Executing `task()` outside the lock. -/
  | running (t : Task)
  /-- Returned from `workerLoop`. -/
  | stopped
deriving Repr, DecidableEq

/-- The pool's shared state. -/
structure PoolState where
  /-- Counter handing out submission ids (models the distinct identity of each
  `packaged_task` object). -/
  nextId : Nat
  /-- The FIFO queue `tasks`; head of the list = `front()` of the queue. -/
  tasks : List Task
  /-- `stopFlag`, written under the mutex by the destructor. -/
  stopFlag : Bool
  /-- Per-worker `stop_token` state; `stopReq[i] = true` once worker `i`'s
  `jthread` destructor has requested stop. -/
  stopReq : List Bool
  /-- Status of each worker thread. -/
  workers : List WStatus
  /-- Filled future shared states, in the order they were filled: the task and
  the outcome its `packaged_task` delivered. -/
  results : List (Task × Outcome)
  /-- Ids in the order workers dequeued them (ghost log of `front(); pop()`). -/
  deqLog : List Nat
deriving Repr, DecidableEq

/-- `ThreadPool::ThreadPool(numThreads)`: starts exactly `numThreads` workers,
each entering `workerLoop`; queue empty, flag clear, no stop requested. -/
def initState (numThreads : Nat) : PoolState :=
  { nextId := 0
    tasks := []
    stopFlag := false
    stopReq := List.replicate numThreads false
    workers := List.replicate numThreads .idle
    results := []
    deqLog := [] }

/-- The error `enqueue` throws after shutdown has begun
(`std::runtime_error("enqueue on stopped ThreadPool")`). -/
inductive PoolError where
  | poolClosed
deriving Repr, DecidableEq

/-- `ThreadPool::enqueue`'s critical section: under the lock, if `stopFlag` is
set it throws `poolClosed` (nothing is emplaced, nobody is notified); otherwise
it emplaces the wrapped task at the back of the queue and returns the future
(identified by the fresh id). -/
def enqueue (s : PoolState) (comp : Except String Int) :
    Except PoolError (PoolState × Nat) :=
  if s.stopFlag then
    .error .poolClosed
  else
    .ok ({ s with
            tasks := s.tasks ++ [⟨s.nextId, comp⟩]
            nextId := s.nextId + 1 },
         s.nextId)

/-- The `cv.wait` predicate of `workerLoop`:
`stopFlag || !tasks.empty() || st.stop_requested()` for worker `i`. -/
def wakePred (s : PoolState) (i : Nat) : Bool :=
  s.stopFlag || !s.tasks.isEmpty || s.stopReq.getD i false

/-- The return check of `workerLoop`:
`(stopFlag && tasks.empty()) || st.stop_requested()` for worker `i`. -/
def exitCond (s : PoolState) (i : Nat) : Bool :=
  (s.stopFlag && s.tasks.isEmpty) || s.stopReq.getD i false

/-- First action of `~ThreadPool`: set `stopFlag` under the lock
(followed by `cv.notify_all()`). -/
def destructorBegin (s : PoolState) : PoolState :=
  { s with stopFlag := true }

/-- Last action of `~ThreadPool`: the `tasks` queue member is destroyed, so
every never-invoked `packaged_task` still in it breaks its promise; a `get` on
such a future fails (broken promise) instead of blocking. -/
def destroyRemaining (s : PoolState) : PoolState :=
  { s with
      tasks := []
      results := s.results ++ s.tasks.map (fun t => (t, Outcome.broken)) }

/-- Ids of tasks currently being executed by some worker. -/
def runningIds (ws : List WStatus) : List Nat :=
  ws.filterMap (fun w => match w with
    | .running t => some t.id
    | _ => none)

/-- One atomic transition of the pool.  Every queue access of the source is
under the single mutex, so each is a single step here. -/
inductive Step : PoolState → PoolState → Prop where
  /-- A successful `enqueue` call (the throwing case changes no state). -/
  | submit (s : PoolState) (comp : Except String Int) (s' : PoolState) (h : Nat) :
      enqueue s comp = .ok (s', h) → Step s s'
  /-- Worker `i` wakes with the predicate true, the return check false,
  takes `tasks.front()` and pops it, then releases the lock and invokes
  the task. -/
  | dequeue (s : PoolState) (i : Nat) (t : Task) (rest : List Task) :
      s.workers[i]? = some .idle →
      s.tasks = t :: rest →
      wakePred s i = true →
      exitCond s i = false →
      Step s { s with
                tasks := rest
                workers := s.workers.set i (.running t)
                deqLog := s.deqLog ++ [t.id] }
  /-- Worker `i` finishes `task()`: the `packaged_task` stores the returned
  value or the caught exception into the future's shared state, and the worker
  loops back to waiting. -/
  | finish (s : PoolState) (i : Nat) (t : Task) :
      s.workers[i]? = some (.running t) →
      Step s { s with
                workers := s.workers.set i .idle
                results := s.results ++ [(t, outcomeOf t.comp)] }
  /-- Worker `i` wakes with the return check true and returns from
  `workerLoop`. -/
  | exit (s : PoolState) (i : Nat) :
      s.workers[i]? = some .idle →
      wakePred s i = true →
      exitCond s i = true →
      Step s { s with workers := s.workers.set i .stopped }
  /-- The destructor sets `stopFlag` under the lock. -/
  | setStop (s : PoolState) :
      Step s (destructorBegin s)
  /-- Worker `i`'s `jthread` destructor requests stop (destruction has begun,
  so `stopFlag` is already set). -/
  | reqStop (s : PoolState) (i : Nat) :
      i < s.stopReq.length →
      s.stopFlag = true →
      Step s { s with stopReq := s.stopReq.set i true }

/-- Reachability: zero or more pool steps. -/
def Trace : PoolState → PoolState → Prop :=
  Relation.ReflTransGen Step

/-- Reading a result handle `h` (`future::get`): `some o` if the shared state
has been filled with outcome `o`, `none` if the read would block. -/
def getResult (s : PoolState) (h : Nat) : Option Outcome :=
  (s.results.find? (fun p => p.1.id == h)).map (·.2)

/-! ## Helper lemmas about worker lists -/

theorem runningIds_set_running (ws : List WStatus) (i : Nat) (t : Task)
    (h : ws[i]? = some .idle) :
    (runningIds (ws.set i (.running t))).Perm (t.id :: runningIds ws) := by
  induction ws generalizing i with
  | nil => simp at h
  | cons w tl ih =>
    cases i with
    | zero =>
      simp at h
      subst h
      simp [runningIds, List.filterMap_cons]
    | succ j =>
      simp at h
      have hp := ih j h
      cases w with
      | idle => simpa [runningIds, List.filterMap_cons] using hp
      | running u =>
        simp only [List.set, runningIds, List.filterMap_cons] at hp ⊢
        exact (hp.cons u.id).trans (List.Perm.swap t.id u.id _)
      | stopped => simpa [runningIds, List.filterMap_cons] using hp

theorem runningIds_set_idle (ws : List WStatus) (i : Nat) (t : Task)
    (h : ws[i]? = some (.running t)) :
    (runningIds ws).Perm (t.id :: runningIds (ws.set i .idle)) := by
  induction ws generalizing i with
  | nil => simp at h
  | cons w tl ih =>
    cases i with
    | zero =>
      simp at h
      subst h
      simp [runningIds, List.filterMap_cons]
    | succ j =>
      simp at h
      have hp := ih j h
      cases w with
      | idle => simpa [runningIds, List.filterMap_cons] using hp
      | running u =>
        simp only [List.set, runningIds, List.filterMap_cons] at hp ⊢
        exact (hp.cons u.id).trans (List.Perm.swap t.id u.id _)
      | stopped => simpa [runningIds, List.filterMap_cons] using hp

theorem runningIds_set_stopped (ws : List WStatus) (i : Nat)
    (h : ws[i]? = some .idle) :
    runningIds (ws.set i .stopped) = runningIds ws := by
  induction ws generalizing i with
  | nil => simp
  | cons w tl ih =>
    cases i with
    | zero =>
      simp at h
      subst h
      simp [runningIds, List.filterMap_cons]
    | succ j =>
      simp at h
      have hj := ih j h
      simp only [runningIds] at hj
      cases w <;> simp [runningIds, List.filterMap_cons, hj]

theorem eq_singleton_of_length_one_get? {l : List WStatus} {i : Nat} {x : WStatus}
    (hl : l.length = 1) (h : l[i]? = some x) : l = [x] ∧ i = 0 := by
  match l, hl with
  | [w], _ =>
    cases i with
    | zero => simp at h; subst h; exact ⟨rfl, rfl⟩
    | succ j => simp at h

/-! ## The global invariant

`fifo`: ids are handed out sequentially and dequeued in submission order, so
the dequeue log followed by the pending queue is exactly `0, 1, …, nextId-1`.
`part`: the delivered results plus the tasks currently being executed are, as
a multiset, exactly the dequeued tasks (each dequeued task is held by one
worker until its one delivery; nothing is delivered twice).
`sound`: every delivered outcome is what invoking that task directly
produces. -/

structure Good (s : PoolState) : Prop where
  fifo : s.deqLog ++ s.tasks.map Task.id = List.range s.nextId
  part : (s.results.map (fun p => p.1.id) ++ runningIds s.workers).Perm s.deqLog
  sound : ∀ p ∈ s.results, p.2 = outcomeOf p.1.comp

theorem good_init (k : Nat) : Good (initState k) := by
  refine ⟨?_, ?_, ?_⟩ <;> simp [initState, runningIds]

theorem good_step {s s' : PoolState} (hg : Good s) (hs : Step s s') : Good s' := by
  obtain ⟨fifo, part, sound⟩ := hg
  cases hs with
  | submit comp s2 h heq =>
    unfold enqueue at heq
    split at heq
    · exact absurd heq (by simp)
    · obtain ⟨rfl, rfl⟩ : ({ s with
          tasks := s.tasks ++ [⟨s.nextId, comp⟩]
          nextId := s.nextId + 1 } : PoolState) = s' ∧ s.nextId = h := by
        simpa using heq
      refine ⟨?_, part, sound⟩
      dsimp only
      simp only [List.map_append, List.map_cons, List.map_nil]
      rw [← List.append_assoc, fifo, List.range_succ]
  | dequeue i t rest hw ht hwk hex =>
    refine ⟨?_, ?_, sound⟩
    · dsimp only
      simp only [ht, List.map_cons] at fifo
      simpa using fifo
    · dsimp only
      have h1 := runningIds_set_running s.workers i t hw
      have h2 := ((h1.append_left
          (s.results.map (fun p => p.1.id))).trans List.perm_middle).trans
        (part.cons t.id)
      exact h2.trans (List.perm_append_singleton t.id s.deqLog).symm
  | finish i t hw =>
    refine ⟨fifo, ?_, ?_⟩
    · dsimp only
      have e1 : (s.results ++ [(t, outcomeOf t.comp)]).map (fun p => p.1.id)
            ++ runningIds (s.workers.set i .idle)
          = s.results.map (fun p => p.1.id)
            ++ (t.id :: runningIds (s.workers.set i .idle)) := by simp
      rw [e1]
      exact ((runningIds_set_idle s.workers i t hw).append_left _).symm.trans part
    · intro p hp
      rcases List.mem_append.mp hp with h | h
      · exact sound p h
      · simp at h
        subst h
        rfl
  | exit i hw hwk hex =>
    exact ⟨fifo, by rwa [runningIds_set_stopped s.workers i hw], sound⟩
  | setStop =>
    exact ⟨fifo, part, sound⟩
  | reqStop i hi hflag =>
    exact ⟨fifo, part, sound⟩

theorem good_trace {k : Nat} {s : PoolState} (h : Trace (initState k) s) : Good s := by
  induction h with
  | refl => exact good_init k
  | tail _ hstep ih => exact good_step ih hstep

/-! ## Single-worker ordering invariant

With `workerCount = 1` the worker finishes each task before dequeuing the
next, so deliveries happen in exactly the dequeue order (as lists, not just as
multisets). -/

theorem set_self_of_getElem? {α : Type} {l : List α} {i : Nat} {x : α}
    (h : l[i]? = some x) : l.set i x = l := by
  induction l generalizing i with
  | nil => simp at h
  | cons w tl ih =>
    cases i with
    | zero => simp at h; simp [h]
    | succ j => simp at h; simp [ih h]

structure GoodOne (s : PoolState) : Prop where
  len : s.workers.length = 1
  ord : s.results.map (fun p => p.1.id) ++ runningIds s.workers = s.deqLog

theorem goodOne_init : GoodOne (initState 1) := by
  refine ⟨rfl, ?_⟩
  simp [initState, runningIds]

theorem goodOne_step {s s' : PoolState} (hg : GoodOne s) (hs : Step s s') :
    GoodOne s' := by
  obtain ⟨len, ord⟩ := hg
  cases hs with
  | submit comp s2 h heq =>
    unfold enqueue at heq
    split at heq
    · exact absurd heq (by simp)
    · obtain ⟨rfl, rfl⟩ : ({ s with
          tasks := s.tasks ++ [⟨s.nextId, comp⟩]
          nextId := s.nextId + 1 } : PoolState) = s' ∧ s.nextId = h := by
        simpa using heq
      exact ⟨len, ord⟩
  | dequeue i t rest hw ht hwk hex =>
    obtain ⟨hws, rfl⟩ := eq_singleton_of_length_one_get? len hw
    refine ⟨by simp [List.length_set, len], ?_⟩
    dsimp only
    rw [hws] at ord ⊢
    simp only [runningIds, List.filterMap_cons, List.filterMap_nil,
      List.append_nil] at ord
    simp [List.set, runningIds, List.filterMap_cons, ord]
  | finish i t hw =>
    obtain ⟨hws, rfl⟩ := eq_singleton_of_length_one_get? len hw
    refine ⟨by simp [List.length_set, len], ?_⟩
    dsimp only
    rw [hws] at ord ⊢
    simp only [runningIds, List.filterMap_cons, List.filterMap_nil] at ord
    simp [List.set, runningIds, List.filterMap_cons, ← ord]
  | exit i hw hwk hex =>
    obtain ⟨hws, rfl⟩ := eq_singleton_of_length_one_get? len hw
    refine ⟨by simp [List.length_set, len], ?_⟩
    dsimp only
    rw [hws] at ord ⊢
    simpa [List.set, runningIds, List.filterMap_cons] using ord
  | setStop =>
    exact ⟨len, ord⟩
  | reqStop i hi hflag =>
    exact ⟨len, ord⟩

theorem goodOne_trace {s : PoolState} (h : Trace (initState 1) s) : GoodOne s := by
  induction h with
  | refl => exact goodOne_init
  | tail _ hstep ih => exact goodOne_step ih hstep

/-! ## Constructing concrete executions

`submit_many` performs a sequence of successful `enqueue` calls; `drain_all`
has worker 0 dequeue and execute every queued task in order. -/

/-- The tasks produced by submitting the computations `cs` when the id counter
stands at `n`. -/
def mkTasks (n : Nat) : List (Except String Int) → List Task
  | [] => []
  | c :: cs => ⟨n, c⟩ :: mkTasks (n + 1) cs

theorem submit_many (cs : List (Except String Int)) :
    ∀ s : PoolState, s.stopFlag = false →
    ∃ s', Trace s s' ∧
      s'.tasks = s.tasks ++ mkTasks s.nextId cs ∧
      s'.nextId = s.nextId + cs.length ∧
      s'.stopFlag = s.stopFlag ∧
      s'.stopReq = s.stopReq ∧
      s'.workers = s.workers ∧
      s'.results = s.results ∧
      s'.deqLog = s.deqLog := by
  induction cs with
  | nil =>
    intro s hs
    exact ⟨s, Relation.ReflTransGen.refl,
      (List.append_nil _).symm, rfl, rfl, rfl, rfl, rfl, rfl⟩
  | cons c cs ih =>
    intro s hs
    have hstep : Step s { s with
        tasks := s.tasks ++ [⟨s.nextId, c⟩]
        nextId := s.nextId + 1 } :=
      Step.submit s c _ s.nextId (by simp [enqueue, hs])
    obtain ⟨s', htr, h1, h2, h3, h4, h5, h6, h7⟩ :=
      ih { s with
            tasks := s.tasks ++ [⟨s.nextId, c⟩]
            nextId := s.nextId + 1 } hs
    refine ⟨s', Relation.ReflTransGen.head hstep htr, ?_, ?_, h3, h4, h5, h6, h7⟩
    · rw [h1]
      simp [mkTasks]
    · rw [h2]
      show s.nextId + 1 + cs.length = s.nextId + (c :: cs).length
      simp [List.length_cons]
      omega

theorem drain_all (pending : List Task) :
    ∀ s : PoolState, s.tasks = pending →
    s.workers[0]? = some .idle →
    s.stopReq.getD 0 false = false →
    ∃ s', Trace s s' ∧
      s'.tasks = [] ∧
      s'.nextId = s.nextId ∧
      s'.stopFlag = s.stopFlag ∧
      s'.stopReq = s.stopReq ∧
      s'.workers = s.workers ∧
      s'.results = s.results ++ pending.map (fun t => (t, outcomeOf t.comp)) ∧
      s'.deqLog = s.deqLog ++ pending.map Task.id := by
  induction pending with
  | nil =>
    intro s ht _ _
    exact ⟨s, Relation.ReflTransGen.refl, ht, rfl, rfl, rfl, rfl,
      (List.append_nil _).symm, (List.append_nil _).symm⟩
  | cons t rest ih =>
    intro s ht hw hreq
    have hlen : 0 < s.workers.length := (List.getElem?_eq_some.mp hw).1
    have hreq' : s.stopReq[0]?.getD false = false := by
      simpa [List.getD] using hreq
    have hdeq : Step s { s with
        tasks := rest
        workers := s.workers.set 0 (.running t)
        deqLog := s.deqLog ++ [t.id] } :=
      Step.dequeue s 0 t rest hw ht
        (by simp [wakePred, ht])
        (by simp [exitCond, ht, hreq'])
    have hfin : Step { s with
        tasks := rest
        workers := s.workers.set 0 (.running t)
        deqLog := s.deqLog ++ [t.id] } { s with
        tasks := rest
        workers := (s.workers.set 0 (.running t)).set 0 .idle
        deqLog := s.deqLog ++ [t.id]
        results := s.results ++ [(t, outcomeOf t.comp)] } := by
      refine Step.finish _ 0 t ?_
      dsimp only
      simp [List.getElem?_set_self, hlen]
    have hwork2 : (s.workers.set 0 (.running t)).set 0 .idle = s.workers := by
      rw [List.set_set]
      exact set_self_of_getElem? hw
    obtain ⟨s', htr, h1, h2, h3, h4, h5, h6, h7⟩ := ih { s with
        tasks := rest
        workers := (s.workers.set 0 (.running t)).set 0 .idle
        deqLog := s.deqLog ++ [t.id]
        results := s.results ++ [(t, outcomeOf t.comp)] }
      rfl (by dsimp only; rw [hwork2]; exact hw) hreq
    refine ⟨s', Relation.ReflTransGen.head hdeq (Relation.ReflTransGen.head hfin htr),
      h1, h2, h3, h4, ?_, ?_, ?_⟩
    · rw [h5]
      dsimp only
      rw [hwork2]
    · rw [h6]
      dsimp only
      simp
    · rw [h7]
      dsimp only
      simp

/-! ## Further helper lemmas -/

theorem runningIds_eq_nil_of_stopped {ws : List WStatus}
    (h : ∀ w ∈ ws, w = .stopped) : runningIds ws = [] := by
  unfold runningIds
  rw [List.filterMap_eq_nil_iff]
  intro w hw
  rw [h w hw]

/-- If no delivered result carries id `n` but a queued task does, then after
the destructor destroys the queue the handle `n` reads the broken-promise
failure. -/
theorem getResult_destroy_broken {s : PoolState} {n : Nat}
    (hnone : s.results.find? (fun p => p.1.id == n) = none)
    (hmem : ∃ t ∈ s.tasks, t.id = n) :
    getResult (destroyRemaining s) n = some .broken := by
  obtain ⟨t, ht, rfl⟩ := hmem
  unfold getResult destroyRemaining
  dsimp only
  rw [List.find?_append, hnone, Option.none_or]
  have hsome : ((s.tasks.map (fun u => (u, Outcome.broken))).find?
      (fun p => p.1.id == t.id)).isSome := by
    rw [List.find?_isSome]
    exact ⟨(t, .broken), List.mem_map_of_mem _ ht, by simp⟩
  obtain ⟨y, hy⟩ := Option.isSome_iff_exists.mp hsome
  have hymem := List.mem_of_find?_eq_some hy
  obtain ⟨u, hu, rfl⟩ := List.mem_map.mp hymem
  rw [hy]
  rfl

theorem mkTasks_map_id (cs : List (Except String Int)) :
    ∀ n, (mkTasks n cs).map Task.id = List.range' n cs.length := by
  induction cs with
  | nil => intro n; simp [mkTasks]
  | cons c cs ih => intro n; simp [mkTasks, List.range', ih]

theorem mkTasks_outcomes (cs : List (Except String Int)) :
    ∀ n, ((mkTasks n cs).map (fun t => (t, outcomeOf t.comp))).map (fun p => p.2)
      = cs.map outcomeOf := by
  induction cs with
  | nil => intro n; simp [mkTasks]
  | cons c cs ih => intro n; simp [mkTasks, ih]

theorem mkTasks_length (cs : List (Except String Int)) :
    ∀ n, (mkTasks n cs).length = cs.length := by
  induction cs with
  | nil => intro n; rfl
  | cons c cs ih => intro n; simp [mkTasks, ih]

theorem mkTasks_results_ids (cs : List (Except String Int)) :
    ∀ n, ((mkTasks n cs).map (fun t => (t, outcomeOf t.comp))).map (fun p => p.1.id)
      = List.range' n cs.length := by
  induction cs with
  | nil => intro n; simp [mkTasks]
  | cons c cs ih => intro n; simp [mkTasks, List.range', ih]

/-- Invariant of every pool constructed with zero workers: no worker exists,
so nothing is ever dequeued or delivered, and the queue holds every
submission in order. -/
theorem zeroWorkers_trace {s : PoolState} (h : Trace (initState 0) s) :
    s.workers = [] ∧ s.results = [] ∧ s.deqLog = [] ∧
    s.tasks.map Task.id = List.range s.nextId := by
  induction h with
  | refl => simp [initState]
  | tail htr hstep ih =>
    obtain ⟨hw, hr, hd, hf⟩ := ih
    rename_i smid s2
    cases hstep with
    | submit comp s3 hh heq =>
      unfold enqueue at heq
      split at heq
      · exact absurd heq (by simp)
      · obtain ⟨rfl, rfl⟩ : ({ smid with
            tasks := smid.tasks ++ [⟨smid.nextId, comp⟩]
            nextId := smid.nextId + 1 } : PoolState) = s2 ∧ smid.nextId = hh := by
          simpa using heq
        refine ⟨hw, hr, hd, ?_⟩
        dsimp only
        rw [List.map_append, hf, List.range_succ]
        rfl
    | dequeue i t rest hwi ht hwk hex =>
      rw [hw] at hwi
      simp at hwi
    | finish i t hwi =>
      rw [hw] at hwi
      simp at hwi
    | exit i hwi hwk hex =>
      rw [hw] at hwi
      simp at hwi
    | setStop => exact ⟨hw, hr, hd, hf⟩
    | reqStop i hi hflag => exact ⟨hw, hr, hd, hf⟩

/-! ## Claims -/

/-- Claim C1 (as stated, refuted): "every work item already enqueued is
executed before its worker terminates; a worker never exits its consume loop
while unexecuted items remain in the queue".  Concrete refuting execution with
one worker: one item is enqueued, the destructor sets `stopFlag`, the worker's
`jthread` destructor requests stop, and the worker — waking with
`st.stop_requested()` true — returns from `workerLoop` while the unexecuted
item is still queued. -/
theorem claim_C1_counterexample :
    Trace (initState 1)
      { nextId := 1, tasks := [⟨0, .ok 1⟩], stopFlag := true,
        stopReq := [true], workers := [.stopped], results := [], deqLog := [] } ∧
    ({ nextId := 1, tasks := [⟨0, .ok 1⟩], stopFlag := true,
        stopReq := [true], workers := [.stopped], results := [], deqLog := [] }
      : PoolState).tasks ≠ [] := by
  constructor
  · refine Relation.ReflTransGen.head
      (Step.submit (initState 1) (.ok 1) _ 0 rfl) ?_
    refine Relation.ReflTransGen.head (Step.setStop _) ?_
    refine Relation.ReflTransGen.head (Step.reqStop _ 0 (by decide) rfl) ?_
    refine Relation.ReflTransGen.head (Step.exit _ 0 (by decide) (by decide) (by decide)) ?_
    exact Relation.ReflTransGen.refl
  · decide

/-- Claim C1 (amended): destruction stops accepting submissions (once
`stopFlag` is set, `enqueue` fails with `poolClosed`), and a worker exits its
loop only when the stop flag is set with the queue empty or when its stop
token has been requested; in particular a worker whose stop token has NOT been
requested never exits while unexecuted items remain queued.  Because the
destructor's `jthread` members request stop before joining, a worker may exit
with items still queued (abandonment), as `claim_C1_counterexample` shows. -/
theorem claim_C1_shutdown (s : PoolState) (i : Nat) :
    ((destructorBegin s).stopFlag = true ∧
      (∀ c, enqueue (destructorBegin s) c = .error .poolClosed)) ∧
    (exitCond s i = true → s.stopReq.getD i false = false → s.tasks = []) := by
  refine ⟨⟨rfl, fun c => by simp [enqueue, destructorBegin]⟩, ?_⟩
  intro hex hreq
  unfold exitCond at hex
  rw [hreq] at hex
  simp at hex
  exact hex.2

/-- Witness for `claim_C1_shutdown`: on a freshly destroyed empty pool the
hypotheses hold and the queue is indeed empty. -/
theorem claim_C1_witness :
    (destructorBegin (initState 1)).tasks = ([] : List Task) :=
  (claim_C1_shutdown (destructorBegin (initState 1)) 0).2 (by decide) (by decide)

/-- Claim C2: a call to `enqueue` made after shutdown has begun (`stopFlag`
set) fails synchronously with the pool-closed error, and there is no
successful outcome (so nothing is appended to the queue, no worker is woken,
and the caller never receives a handle). -/
theorem claim_C2_submit_after_stop_fails (s : PoolState) (c : Except String Int)
    (hs : s.stopFlag = true) :
    enqueue s c = .error .poolClosed ∧
    ∀ s2 h, enqueue s c ≠ .ok (s2, h) := by
  refine ⟨by simp [enqueue, hs], ?_⟩
  intro s2 h
  simp [enqueue, hs]

/-- Witness for `claim_C2_submit_after_stop_fails` on a concrete stopped
pool. -/
theorem claim_C2_witness :
    enqueue (destructorBegin (initState 1)) (.ok 3) = .error .poolClosed :=
  (claim_C2_submit_after_stop_fails (destructorBegin (initState 1)) (.ok 3) rfl).1

/-- Claim C7 (as stated, refuted): "a caller supplying 0 is corrected to 1".
The constructor's loop `for (i = 0; i < numThreads; ++i)` simply runs zero
times: a pool constructed with worker count 0 has zero workers, not one. -/
theorem claim_C7_counterexample :
    (initState 0).workers.length = 0 ∧ ¬ (initState 0).workers.length = 1 := by
  decide

/-- Claim C7 (amended): construction with worker count `n` starts exactly `n`
workers immediately, each idle in its consume loop, with nothing queued and
the pool accepting submissions; no correction of 0 to 1 is performed, so
`n = 0` silently yields a pool with zero workers. -/
theorem claim_C7_construction (n : Nat) :
    (initState n).workers.length = n ∧
    (∀ w ∈ (initState n).workers, w = .idle) ∧
    (initState n).stopFlag = false ∧
    (initState n).tasks = [] := by
  refine ⟨by simp [initState], ?_, rfl, rfl⟩
  intro w hw
  exact List.eq_of_mem_replicate hw

/-- Witness for `claim_C7_construction` at worker count 2. -/
theorem claim_C7_witness :
    (initState 2).workers.length = 2 ∧ WStatus.idle = WStatus.idle :=
  ⟨(claim_C7_construction 2).1, (claim_C7_construction 2).2.1 .idle (by decide)⟩

/-- Claim C10: the stop state is monotonic.  The pool starts with `stopFlag`
false; no transition ever changes `stopFlag` from true back to false (the only
write, in the destructor, sets it to true); and once it is set, `enqueue`
always fails, so the pool never returns to accepting submissions. -/
theorem claim_C10_stop_monotonic :
    (∀ k, (initState k).stopFlag = false) ∧
    (∀ s s', Step s s' → s.stopFlag = true → s'.stopFlag = true) ∧
    (∀ s, (destructorBegin s).stopFlag = true) ∧
    (∀ s c, s.stopFlag = true → enqueue s c = .error .poolClosed) := by
  refine ⟨fun k => rfl, ?_, fun s => rfl, fun s c hs => by simp [enqueue, hs]⟩
  intro s s' hst hflag
  cases hst with
  | submit comp s2 h heq =>
    unfold enqueue at heq
    split at heq
    · exact absurd heq (by simp)
    · exact absurd hflag (by assumption)
  | dequeue i t rest hw ht hwk hex => exact hflag
  | finish i t hw => exact hflag
  | exit i hw hwk hex => exact hflag
  | setStop => rfl
  | reqStop i hi hflag2 => exact hflag

/-- Witness for `claim_C10_stop_monotonic`: a concrete step from a stopped
pool stays stopped. -/
theorem claim_C10_witness :
    (destructorBegin (destructorBegin (initState 1))).stopFlag = true :=
  claim_C10_stop_monotonic.2.1 _ _ (Step.setStop (destructorBegin (initState 1))) rfl

/-- Claim C6: dequeue order equals submission order.  In every reachable state
of a pool with any worker count, the ids dequeued so far followed by the ids
still queued are exactly `0, 1, …, nextId-1` in submission order (submission
appends at the tail, workers always remove the head).  With a single worker
(`workerCount = 1`), whenever the worker is not mid-task the delivered results
are exactly the dequeued ids in order, so items execute in exactly the order
they were submitted. -/
theorem claim_C6_fifo :
    (∀ k s, Trace (initState k) s →
      s.deqLog ++ s.tasks.map Task.id = List.range s.nextId) ∧
    (∀ s, Trace (initState 1) s → runningIds s.workers = [] →
      s.results.map (fun p => p.1.id) = s.deqLog ∧
      s.results.map (fun p => p.1.id) ++ s.tasks.map Task.id
        = List.range s.nextId) := by
  constructor
  · intro k s h
    exact (good_trace h).fifo
  · intro s h hrun
    have hord := (goodOne_trace h).ord
    rw [hrun, List.append_nil] at hord
    exact ⟨hord, by rw [hord]; exact (good_trace h).fifo⟩

/-- Witness for `claim_C6_fifo`: a concrete single-worker execution that
submits one item. -/
theorem claim_C6_witness :
    ∃ s, Trace (initState 1) s ∧
      (s.results.map (fun p => p.1.id) = s.deqLog ∧
       s.results.map (fun p => p.1.id) ++ s.tasks.map Task.id
         = List.range s.nextId) := by
  have htr : Trace (initState 1)
      { nextId := 1, tasks := [⟨0, .ok 5⟩], stopFlag := false,
        stopReq := [false], workers := [.idle], results := [], deqLog := [] } :=
    Relation.ReflTransGen.single (Step.submit (initState 1) (.ok 5) _ 0 rfl)
  exact ⟨_, htr, claim_C6_fifo.2 _ htr (by decide)⟩

/-- Claim C8: each work item enters the queue at most once, is removed by
exactly one worker, and is executed at most once.  In every reachable state
the dequeued ids together with the queued ids contain no duplicate (so an item
in the queue was never dequeued before and is queued once), and the delivered
ids together with the ids currently held by workers contain no duplicate (so
no two workers hold the same item and nothing is delivered twice). -/
theorem claim_C8_at_most_once (k : Nat) (s : PoolState)
    (h : Trace (initState k) s) :
    (s.deqLog ++ s.tasks.map Task.id).Nodup ∧
    (s.results.map (fun p => p.1.id) ++ runningIds s.workers).Nodup := by
  have g := good_trace h
  have h1 : (s.deqLog ++ s.tasks.map Task.id).Nodup := by
    rw [g.fifo]
    exact List.nodup_range _
  exact ⟨h1, g.part.nodup_iff.mpr h1.of_append_left⟩

/-- Witness for `claim_C8_at_most_once` on a concrete two-worker execution
with one submission. -/
theorem claim_C8_witness :
    (([] : List Nat) ++ List.map Task.id [⟨0, .ok 4⟩]).Nodup ∧
    (List.map (fun p => p.1.id) ([] : List (Task × Outcome))
      ++ runningIds [.idle, .idle]).Nodup := by
  have htr : Trace (initState 2)
      { nextId := 1, tasks := [⟨0, .ok 4⟩], stopFlag := false,
        stopReq := [false, false], workers := [.idle, .idle],
        results := [], deqLog := [] } :=
    Relation.ReflTransGen.single (Step.submit (initState 2) (.ok 4) _ 0 rfl)
  exact claim_C8_at_most_once 2 _ htr

/-- Claim C3: for every `workerCount ≥ 1` and every list of submitted
computations there is an execution delivering exactly N results, one per
handle — the delivered ids are `0, …, N-1` in order and each value is exactly
what invoking that computation directly and synchronously produces — and in
every execution each delivered outcome equals the direct invocation of its own
item, and no item is delivered twice. -/
theorem claim_C3_results (k : Nat) (cs : List (Except String Int)) (hk : 1 ≤ k) :
    (∃ s, Trace (initState k) s ∧
      s.results.map (fun p => p.1.id) = List.range cs.length ∧
      s.results.map (fun p => p.2) = cs.map outcomeOf ∧
      s.results.length = cs.length ∧
      s.tasks = []) ∧
    (∀ s, Trace (initState k) s →
      (∀ p ∈ s.results, p.2 = outcomeOf p.1.comp) ∧
      (s.results.map (fun p => p.1.id)).Nodup) := by
  constructor
  · obtain ⟨m, rfl⟩ : ∃ m, k = m + 1 := ⟨k - 1, by omega⟩
    obtain ⟨sA, htrA, hA1, hA2, hA3, hA4, hA5, hA6, hA7⟩ :=
      submit_many cs (initState (m + 1)) rfl
    obtain ⟨sB, htrB, hB1, hB2, hB3, hB4, hB5, hB6, hB7⟩ :=
      drain_all (mkTasks 0 cs) sA
        (by rw [hA1]; rfl)
        (by rw [hA5]; simp [initState, List.replicate_succ])
        (by rw [hA4]; simp [initState, List.replicate_succ])
    rw [hA6] at hB6
    refine ⟨sB, htrA.trans htrB, ?_, ?_, ?_, hB1⟩
    · rw [hB6]
      show ((mkTasks 0 cs).map (fun t => (t, outcomeOf t.comp))).map (fun p => p.1.id)
        = List.range cs.length
      rw [mkTasks_results_ids cs 0, List.range_eq_range']
    · rw [hB6]
      exact mkTasks_outcomes cs 0
    · rw [hB6]
      show ((mkTasks 0 cs).map (fun t => (t, outcomeOf t.comp))).length = cs.length
      rw [List.length_map, mkTasks_length]
  · intro s hs
    have g := good_trace hs
    have h1 : s.deqLog.Nodup := by
      have h2 : (s.deqLog ++ s.tasks.map Task.id).Nodup := by
        rw [g.fifo]
        exact List.nodup_range _
      exact h2.of_append_left
    exact ⟨g.sound, (g.part.nodup_iff.mpr h1).of_append_left⟩

/-- Witness for `claim_C3_results`: one worker, two items (one returning 5,
one throwing). -/
theorem claim_C3_witness :
    ∃ s, Trace (initState 1) s ∧
      s.results.map (fun p => p.1.id) = List.range 2 ∧
      s.results.map (fun p => p.2) = [Outcome.value 5, Outcome.thrown "x"] ∧
      s.results.length = 2 ∧
      s.tasks = [] := by
  have h := (claim_C3_results 1 [.ok 5, .error "x"] (by decide)).1
  simpa [outcomeOf] using h

/-- Claim C5: a work item that throws has the failure captured and delivered
through its own handle (the `packaged_task` stores the exception), the worker
returns to idle rather than terminating, and a subsequently submitted item
still executes: concretely, with one worker, submitting a throwing item and
then a normal one delivers the exception through the first handle and the
value through the second, the worker ending idle with an empty queue. -/
theorem claim_C5_failure_isolated :
    (∀ s i t e, s.workers[i]? = some (.running t) → t.comp = .error e →
      Step s { s with
                workers := s.workers.set i .idle
                results := s.results ++ [(t, Outcome.thrown e)] } ∧
      (s.workers.set i .idle)[i]? = some .idle) ∧
    (∃ s, Trace (initState 1) s ∧
      s.results = [(⟨0, .error "boom"⟩, .thrown "boom"), (⟨1, .ok 7⟩, .value 7)] ∧
      s.workers = [.idle] ∧ s.tasks = []) := by
  constructor
  · intro s i t e hw hcomp
    constructor
    · have he : Outcome.thrown e = outcomeOf t.comp := by rw [hcomp]; rfl
      rw [he]
      exact Step.finish s i t hw
    · have hlen := (List.getElem?_eq_some.mp hw).1
      simp [List.getElem?_set_self, hlen]
  · obtain ⟨sA, htrA, hA1, hA2, hA3, hA4, hA5, hA6, hA7⟩ :=
      submit_many [.error "boom", .ok 7] (initState 1) rfl
    obtain ⟨sB, htrB, hB1, hB2, hB3, hB4, hB5, hB6, hB7⟩ :=
      drain_all (mkTasks 0 [.error "boom", .ok 7]) sA
        (by rw [hA1]; rfl)
        (by rw [hA5]; rfl)
        (by rw [hA4]; rfl)
    rw [hA6] at hB6
    rw [hA5] at hB5
    refine ⟨sB, htrA.trans htrB, ?_, ?_, hB1⟩
    · rw [hB6]
      rfl
    · rw [hB5]
      rfl

/-- Witness for `claim_C5_failure_isolated`: a concrete worker holding a
throwing item delivers the exception and returns to idle. -/
theorem claim_C5_witness :
    Step { nextId := 1, tasks := [], stopFlag := false, stopReq := [false],
           workers := [.running ⟨0, .error "e"⟩], results := [], deqLog := [0] }
         { nextId := 1, tasks := [], stopFlag := false, stopReq := [false],
           workers := [WStatus.running ⟨0, .error "e"⟩].set 0 .idle,
           results := [] ++ [(⟨0, .error "e"⟩, Outcome.thrown "e")],
           deqLog := [0] } ∧
    ([WStatus.running ⟨0, .error "e"⟩].set 0 .idle)[0]? = some WStatus.idle :=
  claim_C5_failure_isolated.1 _ 0 ⟨0, .error "e"⟩ "e" rfl rfl

/-- Claim C4: once destruction has joined every worker (all workers stopped),
destroying the queue completes every outstanding handle: every handle ever
returned reads some outcome (no consumer blocks forever), a handle whose item
never ran reads the broken-promise failure, and every already-delivered value
is preserved. -/
theorem claim_C4_no_hang (k : Nat) (s : PoolState) (h : Trace (initState k) s)
    (hstopped : ∀ w ∈ s.workers, w = .stopped) :
    (∀ n, n < s.nextId → (getResult (destroyRemaining s) n).isSome = true) ∧
    (∀ t ∈ s.tasks, getResult (destroyRemaining s) t.id = some .broken) ∧
    (∀ n o, getResult s n = some o → getResult (destroyRemaining s) n = some o) := by
  have g := good_trace h
  have hrun : runningIds s.workers = [] := runningIds_eq_nil_of_stopped hstopped
  have hperm : (s.results.map (fun p => p.1.id)).Perm s.deqLog := by
    have hp := g.part
    rwa [hrun, List.append_nil] at hp
  have hnodup : (s.deqLog ++ s.tasks.map Task.id).Nodup := by
    rw [g.fifo]
    exact List.nodup_range _
  have hnone : ∀ n, n ∈ s.tasks.map Task.id →
      s.results.find? (fun p => p.1.id == n) = none := by
    intro n hn
    rw [List.find?_eq_none]
    intro p hp
    simp only [beq_iff_eq]
    intro hEq
    have h1 : n ∈ s.deqLog := by
      rw [← hEq]
      exact hperm.mem_iff.mp (List.mem_map_of_mem _ hp)
    exact List.disjoint_of_nodup_append hnodup h1 hn
  have h2 : ∀ t ∈ s.tasks, getResult (destroyRemaining s) t.id = some .broken := by
    intro t ht
    exact getResult_destroy_broken (hnone t.id (List.mem_map_of_mem _ ht)) ⟨t, ht, rfl⟩
  have h3 : ∀ n o, getResult s n = some o →
      getResult (destroyRemaining s) n = some o := by
    intro n o hget
    unfold getResult at hget ⊢
    unfold destroyRemaining
    dsimp only
    rw [List.find?_append]
    obtain ⟨y, hy, hyo⟩ := Option.map_eq_some'.mp hget
    rw [hy]
    simp [hyo]
  refine ⟨?_, h2, h3⟩
  intro n hn
  have hmem : n ∈ s.deqLog ++ s.tasks.map Task.id := by
    rw [g.fifo]
    exact List.mem_range.mpr hn
  rcases List.mem_append.mp hmem with hq | hq
  · have hres : n ∈ s.results.map (fun p => p.1.id) := hperm.mem_iff.mpr hq
    have hs : (getResult s n).isSome := by
      unfold getResult
      rw [Option.isSome_map', List.find?_isSome]
      obtain ⟨p, hp, hpid⟩ := List.mem_map.mp hres
      exact ⟨p, hp, by simp [hpid]⟩
    obtain ⟨o, ho⟩ := Option.isSome_iff_exists.mp hs
    rw [h3 n o ho]
    rfl
  · obtain ⟨t, ht, htid⟩ := List.mem_map.mp hq
    rw [← htid, h2 t ht]
    rfl

/-- Witness for `claim_C4_no_hang`: a pool destroyed with one never-run item
queued; after destruction its handle reads the broken-promise failure. -/
theorem claim_C4_witness :
    ∃ s, Trace (initState 1) s ∧
      getResult (destroyRemaining s) 0 = some Outcome.broken := by
  have htr : Trace (initState 1)
      { nextId := 1, tasks := [⟨0, .ok 1⟩], stopFlag := true,
        stopReq := [true], workers := [.stopped], results := [], deqLog := [] } := by
    refine Relation.ReflTransGen.head
      (Step.submit (initState 1) (.ok 1) _ 0 rfl) ?_
    refine Relation.ReflTransGen.head (Step.setStop _) ?_
    refine Relation.ReflTransGen.head (Step.reqStop _ 0 (by decide) rfl) ?_
    refine Relation.ReflTransGen.head (Step.exit _ 0 (by decide) (by decide) (by decide)) ?_
    exact Relation.ReflTransGen.refl
  have h := claim_C4_no_hang 1 _ htr (by decide)
  exact ⟨_, htr, h.2.1 ⟨0, .ok 1⟩ (by decide)⟩

/-- Claim C9: for a pool constructed with worker count 0, `enqueue` still
succeeds and returns a handle while the pool is running; nothing is ever
executed or delivered while the pool is alive (there is no worker); the queue
holds every submission in order; and at destruction every handle completes
with the broken-promise failure. -/
theorem claim_C9_zero_workers (s : PoolState) (h : Trace (initState 0) s) :
    (s.stopFlag = false → ∀ c, enqueue s c =
      .ok ({ s with
              tasks := s.tasks ++ [⟨s.nextId, c⟩]
              nextId := s.nextId + 1 }, s.nextId)) ∧
    s.results = [] ∧
    s.tasks.map Task.id = List.range s.nextId ∧
    (∀ n, n < s.nextId → getResult (destroyRemaining s) n = some .broken) := by
  obtain ⟨hw, hr, hd, hf⟩ := zeroWorkers_trace h
  refine ⟨fun hflag c => by simp [enqueue, hflag], hr, hf, ?_⟩
  intro n hn
  have hmem : n ∈ s.tasks.map Task.id := by
    rw [hf]
    exact List.mem_range.mpr hn
  obtain ⟨t, ht, htid⟩ := List.mem_map.mp hmem
  refine getResult_destroy_broken ?_ ⟨t, ht, htid⟩
  rw [hr]
  rfl

/-- Witness for `claim_C9_zero_workers`: a zero-worker pool accepts one
submission; nothing is delivered while alive and the handle breaks at
destruction. -/
theorem claim_C9_witness :
    ∃ s, Trace (initState 0) s ∧ s.results = [] ∧
      getResult (destroyRemaining s) 0 = some Outcome.broken := by
  have htr : Trace (initState 0)
      { nextId := 1, tasks := [⟨0, .ok 1⟩], stopFlag := false,
        stopReq := [], workers := [], results := [], deqLog := [] } :=
    Relation.ReflTransGen.single (Step.submit (initState 0) (.ok 1) _ 0 rfl)
  have h := claim_C9_zero_workers _ htr
  exact ⟨_, htr, h.2.1, h.2.2.2 0 (by decide)⟩

end TP
